import Mathlib

/-!
Verification development for the `graphql-transform` code generator.

The definitions below are a shallow embedding of the Go transformation
module (`transformers.go`) together with the fragment-sorting step of
`buildTargets` and the casing helpers (`splitStringByCase`, `camelCase`,
`pascalCase`).  The GraphQL AST node types are those of the
`graphql-go/graphql/language/ast` package, restricted to the fields the
transformers actually read.  Each embedded function keeps the name of the
Go function it translates.

Modelling conventions:
* Go slices become `List`; where the code distinguishes a `nil` slice from
  a non-empty one observably (`gatherFragmentDependencies` returns `nil`
  for "no dependencies"), the result is `Option (List _)` with `none`
  standing for the `nil` slice.
* Nullable AST pointers that the parser can actually leave nil
  (`OperationDefinition.Name`, `OperationDefinition.SelectionSet`,
  `Field.SelectionSet`) become `Option`; dereferencing a nil pointer in Go
  is a runtime panic, modelled as an `Except.error` carrying the Go
  runtime error message.
* The external parser is represented by its outcome: `transformGraphql`
  receives `Except String Document`, the error case being a parse failure.
-/

/-- AST value nodes of the parser library (`ast.Value`).  The constructor
names are the kind tags the Go type switch in `transformFieldArgumentValue`
dispatches on.  `Variable.GetValue` yields the variable's `*ast.Name`;
`IntValue`, `FloatValue`, `StringValue` and `EnumValue` store their raw
literal text as a Go `string`; `BooleanValue` stores a Go `bool`;
`ObjectValue` stores its `*ast.ObjectField` list as (name, value) pairs. -/
inductive AstValue where
  | Variable (name : String)
  | ListValue (values : List AstValue)
  | EnumValue (value : String)
  | BooleanValue (value : Bool)
  | IntValue (value : String)
  | FloatValue (value : String)
  | StringValue (value : String)
  | ObjectValue (fields : List (String × AstValue))
deriving Repr

mutual
/-- AST selection nodes (`ast.Selection`): the three implementations are
`ast.Field`, `ast.FragmentSpread` and `ast.InlineFragment`; only the
fields read by `transformGraphqlField` are modelled. -/
inductive Selection where
  | Field (name : String) (arguments : List (String × AstValue))
      (selectionSet : Option SelectionSet)
  | FragmentSpread (name : String)
  | InlineFragment (typeCondition : String) (selectionSet : SelectionSet)

/-- AST selection set (`ast.SelectionSet`), an ordered selection list. -/
inductive SelectionSet where
  | mk (selections : List Selection)
end

/-- Selections of a selection set (field accessor for `SelectionSet`). -/
def SelectionSet.selections : SelectionSet → List Selection
  | .mk sels => sels

/-- AST type references (`ast.Type`): the three implementations are
`ast.Named`, `ast.List` and `ast.NonNull`. -/
inductive AstType where
  | Named (name : String)
  | List (ofType : AstType)
  | NonNull (ofType : AstType)
deriving Repr, DecidableEq

/-- AST variable definition (`ast.VariableDefinition`): the transformer
reads `Variable.Name.Value` and `Type`. -/
structure VariableDefinition where
  variableName : String
  type : AstType
deriving Repr, DecidableEq

/-- AST operation definition (`ast.OperationDefinition`).  `Name` is a
`*ast.Name` pointer which the parser leaves nil for anonymous operations;
`SelectionSet` is a nullable pointer checked by the code.  `Operation` is
the operation keyword string (`"query"`, `"mutation"`, ...). -/
structure OperationDefinition where
  operation : String
  name : Option String
  variableDefinitions : List VariableDefinition
  selectionSet : Option SelectionSet

/-- AST fragment definition (`ast.FragmentDefinition`).  The grammar
requires a name and a type condition, so the parser always fills these. -/
structure FragmentDefinition where
  name : String
  typeCondition : String
  selectionSet : SelectionSet

/-- Top-level AST definition of a document.  Kinds other than operation
and fragment definitions (for example type-system definitions such as
`ObjectDefinition`) are grouped by their kind tag, which is all the
dispatcher reads from them. -/
inductive Definition where
  | operationDefinition (d : OperationDefinition)
  | fragmentDefinition (d : FragmentDefinition)
  | otherDefinition (kind : String)

/-- Kind tag of a top-level definition (`def.GetKind()`). -/
def Definition.getKind : Definition → String
  | .operationDefinition _ => "OperationDefinition"
  | .fragmentDefinition _ => "FragmentDefinition"
  | .otherDefinition kind => kind

/-- AST document (`ast.Document`): kind tag plus ordered definitions.  The
parser always produces `Kind = "Document"`; the field is kept because
`transformGraphql` checks it. -/
structure Document where
  kind : String
  definitions : List Definition

/-- Output model: an argument rendered for the template (Go struct
`FieldArgument`). -/
structure FieldArgument where
  name : String
  value : String
deriving Repr, DecidableEq

/-- Output model: a normalized field node (Go struct `GraphqlField`).
`subFields` is recursive, so this is an inductive with accessors below. -/
inductive GraphqlField where
  | mk (isSpread : Bool) (name : String) (sourceType : String)
      (arguments : List FieldArgument) (subFields : List GraphqlField)
deriving Repr

/-- IsSpread flag of a normalized field. -/
def GraphqlField.isSpread : GraphqlField → Bool
  | .mk s _ _ _ _ => s

/-- Name of a normalized field. -/
def GraphqlField.name : GraphqlField → String
  | .mk _ n _ _ _ => n

/-- SourceType of a normalized field. -/
def GraphqlField.sourceType : GraphqlField → String
  | .mk _ _ t _ _ => t

/-- Arguments of a normalized field. -/
def GraphqlField.arguments : GraphqlField → List FieldArgument
  | .mk _ _ _ a _ => a

/-- SubFields of a normalized field. -/
def GraphqlField.subFields : GraphqlField → List GraphqlField
  | .mk _ _ _ _ f => f

/-- Output model: a fragment (Go struct `Fragment`).  The Go field
`FragmentDependencies` is a `[]string` that is observably `nil` ("absent")
when there are no dependencies, hence `Option`. -/
structure Fragment where
  name : String
  sourceType : String
  fields : List GraphqlField
  fragmentDependencies : Option (List String)

/-- Output model: a variable of an operation (Go struct `Variable`). -/
structure Variable where
  name : String
  type : String
deriving Repr, DecidableEq

/-- Output model: a query or mutation (Go struct `Operation`).  The Go
field `Variables` is spelled `variables'` because `variables` is reserved
in Lean. -/
structure Operation where
  name : String
  variables' : List Variable
  fields : List GraphqlField

/-- Output model: the aggregate template data (Go struct `TemplateData`). -/
structure TemplateData where
  fragments : List Fragment
  queries : List Operation
  mutations : List Operation

mutual
/-- Value Serializer (`transformFieldArgumentValue` in `transformers.go`).
The Go function switches on `node.GetKind()`; the scalar arm inspects the
dynamic type of `GetValue()`, which for the parser's nodes is always a
`string` (enum/int/float/string literals) or a `bool` (booleans), so the
`invalid value` and `Unknown argument value kind` error returns of the
source are unreachable on these closed node types and the embedding is
total.  Note the source really does return the misspelled token `"fales"`
for the boolean `false`. -/
def transformFieldArgumentValue : AstValue → String
  | .Variable name => "$" ++ name
  | .ListValue values =>
      "[" ++ String.intercalate ", " (transformValueList values) ++ "]"
  | .EnumValue value => value
  | .BooleanValue value => if value then "true" else "fales"
  | .IntValue value => value
  | .FloatValue value => value
  | .StringValue value => value
  | .ObjectValue fields =>
      "\x7b" ++ String.intercalate ", " (transformObjectFieldList fields) ++ "\x7d"

/-- Serialized elements of a `ListValue` (the accumulation loop of the
`ListValue` arm). -/
def transformValueList : List AstValue → List String
  | [] => []
  | v :: vs => transformFieldArgumentValue v :: transformValueList vs

/-- Serialized `name: value` entries of an `ObjectValue` (the accumulation
loop of the `ObjectValue` arm). -/
def transformObjectFieldList : List (String × AstValue) → List String
  | [] => []
  | (n, v) :: fs =>
      (n ++ ": " ++ transformFieldArgumentValue v) :: transformObjectFieldList fs
end

mutual
/-- Selection Transformer (`transformGraphqlField` in `transformers.go`):
converts a selection set into the ordered normalized field list.  The
`Unknown selection kind` error return of the source is unreachable because
`ast.Field`, `ast.FragmentSpread` and `ast.InlineFragment` are the only
selection node types the parser produces, and argument serialization is
total (see `transformFieldArgumentValue`), so the embedding is total. -/
def transformGraphqlField : SelectionSet → List GraphqlField
  | .mk sels => transformSelectionList sels

/-- Loop body of `transformGraphqlField` over the selection list, one
output field appended per selection in source order. -/
def transformSelectionList : List Selection → List GraphqlField
  | [] => []
  | s :: rest => transformSelection s :: transformSelectionList rest

/-- Transformation of a single selection, exactly the three branches of
the Go loop: a plain field (with arguments serialized and an optional
nested selection set), a fragment spread, or an inline fragment. -/
def transformSelection : Selection → GraphqlField
  | .Field name args selSet =>
      GraphqlField.mk false name ""
        (if args.length > 0 then transformArgumentList args else [])
        (match selSet with
         | some ss => transformGraphqlField ss
         | none => [])
  | .FragmentSpread name => GraphqlField.mk true name "" [] []
  | .InlineFragment typeCondition selSet =>
      GraphqlField.mk true "" typeCondition [] (transformGraphqlField selSet)

/-- Argument loop of the plain-field branch: serializes each argument
value in order. -/
def transformArgumentList : List (String × AstValue) → List FieldArgument
  | [] => []
  | (n, v) :: rest =>
      FieldArgument.mk n (transformFieldArgumentValue v) :: transformArgumentList rest
end

mutual
/-- Fragment Dependency Collector (`gatherFragmentDependencies` in
`transformers.go`): flattens the names of all fragment spreads in a field
tree.  Returns `none` (the Go `nil` slice) when the gathered list is
empty, otherwise `some` of the list. -/
def gatherFragmentDependencies (fields : List GraphqlField) : Option (List String) :=
  let fragmentNames := gatherFragmentDependenciesLoop fields
  if fragmentNames.isEmpty then none else some fragmentNames

/-- Loop of `gatherFragmentDependencies`: per field, append the name when
the field is a spread with a non-empty name, then append the recursively
gathered names of its subfields (splatting the possibly-`nil` recursive
result appends nothing when it is `nil`). -/
def gatherFragmentDependenciesLoop : List GraphqlField → List String
  | [] => []
  | GraphqlField.mk isSpread name _ _ subFields :: rest =>
      (if isSpread ∧ name ≠ "" then [name] else []) ++
      (if subFields.length > 0 then (gatherFragmentDependencies subFields).getD [] else []) ++
      gatherFragmentDependenciesLoop rest
end

/-- Fragment builder (`transformFragment` in `transformers.go`).  The
transformation of the selection set is total (see
`transformGraphqlField`), so the error propagation of the source is
unreachable and the embedding is total. -/
def transformFragment (d : FragmentDefinition) : Fragment :=
  let fields := transformGraphqlField d.selectionSet
  { name := d.name
    sourceType := d.typeCondition
    fields := fields
    fragmentDependencies := gatherFragmentDependencies fields }

/-- Type Serializer (`transformVariableType` in `transformers.go`).  The
`Unknown type kind` error return is unreachable because `ast.NonNull`,
`ast.List` and `ast.Named` are the only `ast.Type` implementations, so
the embedding is total. -/
def transformVariableType : AstType → String
  | .NonNull t => transformVariableType t ++ "!"
  | .List t => "[" ++ transformVariableType t ++ "]"
  | .Named n => n

/-- Go runtime panic message raised by dereferencing a nil pointer, as
with `def.Name.Value` when `def.Name` is nil. -/
def nilPointerDereference : String :=
  "runtime error: invalid memory address or nil pointer dereference"

/-- Operation builder (`transformOperation` in `transformers.go`).  The Go
function first builds `Operation{Name: def.Name.Value}`: when the
operation is anonymous the parser leaves `def.Name` nil and this access
panics, modelled as `Except.error nilPointerDereference`.  Variable-type
serialization and selection transformation are total (see
`transformVariableType`, `transformGraphqlField`), so the source's
`(operation, err)` error returns are otherwise unreachable. -/
def transformOperation (d : OperationDefinition) : Except String Operation :=
  match d.name with
  | none => .error nilPointerDereference
  | some n =>
      .ok { name := n
            variables' := d.variableDefinitions.map fun varDef =>
              { name := varDef.variableName, type := transformVariableType varDef.type }
            fields :=
              match d.selectionSet with
              | some ss => transformGraphqlField ss
              | none => [] }

/-- Definition loop of `transformGraphql`: dispatches each top-level
definition in document order, appending to the accumulated
`TemplateData`.  The result mirrors the two Go failure channels: the outer
`Except.error` is a runtime panic (from `transformOperation` on an
anonymous operation), while `(state, some msg)` is a returned `error`
value — note the Go code mutates the caller's `TemplateData` through a
pointer, so the state accumulated before a failing definition is kept. -/
def processDefinitions (templateData : TemplateData) :
    List Definition → Except String (TemplateData × Option String)
  | [] => .ok (templateData, none)
  | .operationDefinition o :: rest =>
      if o.operation = "query" then
        match transformOperation o with
        | .error panicMsg => .error panicMsg
        | .ok q =>
            processDefinitions
              { templateData with queries := templateData.queries ++ [q] } rest
      else if o.operation = "mutation" then
        match transformOperation o with
        | .error panicMsg => .error panicMsg
        | .ok m =>
            processDefinitions
              { templateData with mutations := templateData.mutations ++ [m] } rest
      else
        .ok (templateData, some ("Unknown operation kind: " ++ o.operation))
  | .fragmentDefinition f :: rest =>
      processDefinitions
        { templateData with fragments := templateData.fragments ++ [transformFragment f] } rest
  | .otherDefinition kind :: _rest =>
      .ok (templateData, some ("Unknown definition kind: " ++ kind))

/-- Document Transformer (`transformGraphql` in `transformers.go`).  The
input `parseResult` is the outcome of the external `parser.Parse` call on
the schema text.  The source's parse-failure branch is
`if err != nil { return nil }`: it reports success (`none` error) and
leaves the `TemplateData` untouched, swallowing the parse error. -/
def transformGraphql (templateData : TemplateData)
    (parseResult : Except String Document) :
    Except String (TemplateData × Option String) :=
  match parseResult with
  | .error _ => .ok (templateData, none)
  | .ok doc =>
      if doc.kind ≠ "Document" then
        .ok (templateData, some "expected document to be top-level node")
      else
        processDefinitions templateData doc.definitions

/-- Dependency count of a fragment: `len(f.FragmentDependencies)` in Go,
where the length of the `nil` slice is `0`. -/
def dependencyCount (f : Fragment) : Nat :=
  (f.fragmentDependencies.getD []).length

/-- Insertion step of the stable fragment sort: a fragment `x` that came
later in encounter order is inserted after every earlier fragment with a
dependency count `≤` its own, so equal counts keep encounter order. -/
def insertFragmentStable (x : Fragment) : List Fragment → List Fragment
  | [] => [x]
  | y :: ys =>
      if dependencyCount x ≤ dependencyCount y then x :: y :: ys
      else y :: insertFragmentStable x ys

/-- Fragment reordering pass of `buildTargets`: the source calls
`sort.SliceStable` with the comparator
`len(fragments[l].FragmentDependencies) < len(fragments[r].FragmentDependencies)`.
`sort.SliceStable`'s documented contract — ascending by the comparator,
equal elements keeping their original order — determines the output
uniquely, and this stable insertion sort computes exactly that
reordering. -/
def sortFragmentsByDependencyCount : List Fragment → List Fragment
  | [] => []
  | x :: xs => insertFragmentStable x (sortFragmentsByDependencyCount xs)

/-- Interface of the external casing primitives the helpers consume:
`unicode.IsLower`, `unicode.IsUpper`, `unicode.ToLower` (which
`strings.ToLower` maps over every rune), `unicode.ToTitle` and the
word-separator test used internally by `strings.Title`.  These live in
Go's standard library, outside this repository, so — like the parser —
they are represented at their interface boundary: the helpers below take
the classifier as a parameter, and concrete classifiers below record the
library's documented behavior on the character sets the theorems reason
about. -/
structure CaseClassifier where
  isLower : Char → Bool
  isUpper : Char → Bool
  toLower : Char → Char
  toTitle : Char → Char
  isSeparator : Char → Bool

/-- Separator test of `strings.Title` on the ASCII range: a rune below
U+0080 is a separator unless it is a letter, a digit or an underscore. -/
def stringsTitleIsSeparator (c : Char) : Bool :=
  !(c.isAlphanum || c = '_')

/-- The casing primitives restricted to the ASCII range: on every
character below U+0080, Go's `unicode.IsLower`, `unicode.IsUpper`,
`unicode.ToLower` and `unicode.ToTitle` coincide with Lean's ASCII
`Char.isLower`, `Char.isUpper`, `Char.toLower` and `Char.toUpper`, and
`strings.Title`'s separator test with `stringsTitleIsSeparator`. -/
def asciiCaseClassifier : CaseClassifier :=
  { isLower := Char.isLower
    isUpper := Char.isUpper
    toLower := Char.toLower
    toTitle := Char.toUpper
    isSeparator := stringsTitleIsSeparator }

/-- U+1D400 MATHEMATICAL BOLD CAPITAL A: a Unicode letter of category Lu
(uppercase) with no lowercase, uppercase or titlecase mapping. -/
def mathBoldCapitalA : Char := Char.ofNat 0x1D400

/-- The casing primitives as Go's `unicode` and `strings` packages behave
on the ASCII range extended with U+1D400: that character's category is Lu,
so `IsUpper` is true and `IsLower` false; it has no case mappings, so
`ToLower` and `ToTitle` leave it unchanged (Lean's `Char.toLower` and
`Char.toUpper` already fix every character outside the ASCII letters);
and it is a letter, so `strings.Title` does not treat it as a word
separator. -/
def unicodeCaseClassifierMathBold : CaseClassifier :=
  { isLower := Char.isLower
    isUpper := fun c => c.isUpper || c = mathBoldCapitalA
    toLower := Char.toLower
    toTitle := Char.toUpper
    isSeparator := fun c => !(c.isAlphanum || c = '_' || c = mathBoldCapitalA) }

/-- Rune loop of `splitStringByCase`: state is the accumulated `words` and
the current `word`.  A lowercase rune (per `unicode.IsLower`) extends the
word; any other rune flushes the non-empty word, and an uppercase rune
(per `unicode.IsUpper`) additionally starts a new word with its
`strings.ToLower`-ed form while every other rune starts from the empty
word. -/
def splitStringByCaseAux (u : CaseClassifier) :
    List Char → List String → String → List String
  | [], words, word => if word ≠ "" then words ++ [word] else words
  | c :: rest, words, word =>
      if u.isLower c then
        splitStringByCaseAux u rest words (word.push c)
      else
        let words' := if word ≠ "" then words ++ [word] else words
        if u.isUpper c then
          splitStringByCaseAux u rest words' (String.singleton (u.toLower c))
        else
          splitStringByCaseAux u rest words' ""

/-- Case splitter (`splitStringByCase` in the main module): splits an
identifier into word tokens on uppercase-letter and non-letter
boundaries, lowercasing the tokens. -/
def splitStringByCase (u : CaseClassifier) (str : String) : List String :=
  splitStringByCaseAux u str.data [] ""

/-- Go's `strings.ToLower`: maps `unicode.ToLower` over every rune. -/
def stringsToLower (u : CaseClassifier) (s : String) : String :=
  String.mk (s.data.map u.toLower)

/-- Rune loop of `strings.Title`: title-case a rune that follows a
separator, tracking the previous rune. -/
def stringsTitleAux (u : CaseClassifier) : Char → List Char → List Char
  | _, [] => []
  | prev, c :: rest =>
      (if u.isSeparator prev then u.toTitle c else c) :: stringsTitleAux u c rest

/-- Go's `strings.Title`: title-cases the first letter of each
separator-delimited word; the initial previous-rune is a space. -/
def stringsTitle (u : CaseClassifier) (s : String) : String :=
  String.mk (stringsTitleAux u ' ' s.data)

/-- Casing helper `camelCase` from the main module: first word
`strings.ToLower`-ed, remaining words `strings.Title(strings.ToLower(word))`,
joined with no separator (`strings.Join(words, "")`). -/
def camelCase (u : CaseClassifier) (str : String) : String :=
  match splitStringByCase u str with
  | [] => ""
  | w :: ws =>
      String.join
        (stringsToLower u w :: ws.map fun word => stringsTitle u (stringsToLower u word))

/-- Casing helper `pascalCase` from the main module: every word
`strings.Title(strings.ToLower(word))`, joined with no separator. -/
def pascalCase (u : CaseClassifier) (str : String) : String :=
  String.join ((splitStringByCase u str).map fun word => stringsTitle u (stringsToLower u word))

/-- Specification-side count: the number of named fragment-spread
occurrences in a field tree — nodes with `isSpread` set and a non-empty
name, counted at every nesting level; inline fragments (empty name) are
not counted but their subfields are scanned. -/
def countSpreads : List GraphqlField → Nat
  | [] => 0
  | GraphqlField.mk isSpread name _ _ subFields :: rest =>
      (if isSpread ∧ name ≠ "" then 1 else 0) + countSpreads subFields + countSpreads rest

/-- Concrete fragment definition `fragment F on User \x7b id \x7d`, used
as a valid definition preceding a failing one. -/
def exampleFragmentDefinition : FragmentDefinition :=
  { name := "F"
    typeCondition := "User"
    selectionSet := .mk [.Field "id" [] none] }

/-- Concrete document whose first definition is a valid fragment and whose
second is a type definition (kind `ObjectDefinition`). -/
def exampleDocumentWithBadDefinition : Document :=
  { kind := "Document"
    definitions := [.fragmentDefinition exampleFragmentDefinition,
                    .otherDefinition "ObjectDefinition"] }

/-- Fresh accumulated template data, as `buildTargets` initializes it. -/
def emptyTemplateData : TemplateData :=
  { fragments := [], queries := [], mutations := [] }

theorem transformSelectionList_eq_map (sels : List Selection) :
    transformSelectionList sels = sels.map transformSelection := by
  induction sels with
  | nil => rfl
  | cons s rest ih => simp [transformSelectionList, ih]

/-- C1: the claim states that for every input string the parser rejects as
malformed GraphQL, `transformGraphql` returns a fatal error aborting the
file.  The code does the opposite: the parse-failure branch is
`if err != nil { return nil }`, reporting success (no error) and leaving
the accumulated `TemplateData` untouched.  This theorem evaluates the
document transformer at a parser failure and shows it returns success
with no error message — the spec's intent (fatal error) is contradicted
by the code. -/
theorem transformGraphql_swallows_parse_error (td : TemplateData) (msg : String) :
    transformGraphql td (.error msg) = .ok (td, none) := rfl

/-- C2: the claim states that boolean argument values serialize to the
lowercase tokens `"true"` and `"false"`.  The code returns `"true"` for
`true` but the misspelled token `"fales"` for `false` — a slip
contradicting the spec and the code's own `FieldArgument.Value`
documentation. -/
theorem transformFieldArgumentValue_boolean_literals :
    transformFieldArgumentValue (.BooleanValue true) = "true" ∧
    transformFieldArgumentValue (.BooleanValue false) = "fales" :=
  ⟨rfl, rfl⟩

/-- C4: the claim states that for an anonymous operation
`transformOperation` succeeds with an empty `Name` and the access to the
definition's name never fails.  The parser leaves `def.Name` nil for
anonymous operations, and the code's very first step,
`Operation{Name: def.Name.Value}`, dereferences that nil pointer: the Go
program panics instead of returning an empty name.  This theorem
evaluates the operation builder at an anonymous `query { id }`. -/
theorem transformOperation_anonymous_panics :
    transformOperation
      { operation := "query", name := none, variableDefinitions := [],
        selectionSet := some (.mk [.Field "id" [] none]) }
      = .error nilPointerDereference := rfl

/-- C5: the claim states that the Value Serializer's output re-parses to
a value equivalent to the original for every valid value node.  The code
emits string literals without quotes (contradicting its own
`FieldArgument.Value` documentation, which shows the example `"hello"`
quoted) and emits `false` as the misspelled `"fales"`: the string value
`hello` and the enum value `hello` serialize to the same text, so no
parse function whatsoever can map the output back to the original value
of both, and `"fales"` is not valid boolean text at all. -/
theorem transformFieldArgumentValue_no_round_trip :
    transformFieldArgumentValue (.StringValue "hello") = "hello" ∧
    transformFieldArgumentValue (.EnumValue "hello") = "hello" ∧
    transformFieldArgumentValue (.BooleanValue false) = "fales" ∧
    ¬ ∃ reparse : String → AstValue,
        reparse (transformFieldArgumentValue (.StringValue "hello"))
            = .StringValue "hello" ∧
        reparse (transformFieldArgumentValue (.EnumValue "hello"))
            = .EnumValue "hello" := by
  refine ⟨rfl, rfl, rfl, ?_⟩
  rintro ⟨reparse, h1, h2⟩
  rw [show transformFieldArgumentValue (.StringValue "hello") = "hello" from rfl] at h1
  rw [show transformFieldArgumentValue (.EnumValue "hello") = "hello" from rfl] at h2
  rw [h1] at h2
  exact AstValue.noConfusion h2

/-- C8: the claim states that the Type Serializer returns the canonical
string of a type reference — the name of a named type, `[inner]` for a
list wrapper, `inner!` for a non-null wrapper — and in particular that
the type of `$ids: [ID!]!` serializes to `[ID!]!`. -/
theorem transformVariableType_canonical (n : String) (t : AstType) :
    transformVariableType (.Named n) = n ∧
    transformVariableType (.List t) = "[" ++ transformVariableType t ++ "]" ∧
    transformVariableType (.NonNull t) = transformVariableType t ++ "!" ∧
    transformVariableType (.NonNull (.List (.NonNull (.Named "ID")))) = "[ID!]!" :=
  ⟨rfl, rfl, rfl, rfl⟩

/-- C9: the claim states that the Selection Transformer maps a selection
set to a field sequence of exactly the same length in which the i-th
field is the transform of the i-th selection.  With the parser's three
selection node kinds the transformer is total, appends exactly one field
per selection in source order, and the index-for-index correspondence
holds. -/
theorem transformGraphqlField_preserves_order (sels : List Selection) :
    (transformGraphqlField (.mk sels)).length = sels.length ∧
    ∀ i : Nat, (transformGraphqlField (.mk sels))[i]?
        = (sels[i]?).map transformSelection := by
  have h : transformGraphqlField (.mk sels) = sels.map transformSelection := by
    rw [show transformGraphqlField (.mk sels) = transformSelectionList sels from rfl,
      transformSelectionList_eq_map]
  refine ⟨by rw [h]; exact List.length_map sels transformSelection, fun i => ?_⟩
  rw [h]
  exact List.getElem?_map transformSelection sels i

theorem getD_gatherFragmentDependencies (fields : List GraphqlField) :
    (gatherFragmentDependencies fields).getD [] = gatherFragmentDependenciesLoop fields := by
  rw [gatherFragmentDependencies]
  by_cases h : (gatherFragmentDependenciesLoop fields).isEmpty
  · simp [h, List.isEmpty_iff.mp h]
  · simp [h]

theorem gatherFragmentDependenciesLoop_length (fields : List GraphqlField) :
    (gatherFragmentDependenciesLoop fields).length = countSpreads fields := by
  match fields with
  | [] => simp [gatherFragmentDependenciesLoop, countSpreads]
  | GraphqlField.mk isSpread name st args subFields :: rest =>
    have h1 := gatherFragmentDependenciesLoop_length subFields
    have h2 := gatherFragmentDependenciesLoop_length rest
    rw [gatherFragmentDependenciesLoop, countSpreads, getD_gatherFragmentDependencies]
    by_cases hs : subFields.length > 0
    · simp [hs, h1, h2]
      by_cases hn : isSpread = true ∧ name ≠ ""
      · simp [hn]
        omega
      · simp [hn]
    · have hnil : subFields = [] := by
        cases subFields with
        | nil => rfl
        | cons a b => simp at hs
      subst hnil
      simp [h1, h2, countSpreads] at h1 ⊢
      by_cases hn : isSpread = true ∧ name ≠ ""
      · simp [hn, countSpreads]
      · simp [hn, countSpreads]

/-- C6: the claim states that the Fragment Dependency Collector returns
the flat, ordered, non-deduplicated fragment-spread names of a field
tree: with exactly N named spread occurrences anywhere in the tree
(inline fragments not counted, their subfields still scanned) the result
has length exactly N, and with N = 0 the result is the absent `nil`
slice, never a present-but-empty one. -/
theorem gatherFragmentDependencies_spec (fields : List GraphqlField) :
    ((gatherFragmentDependencies fields).getD []).length = countSpreads fields ∧
    (gatherFragmentDependencies fields = none ↔ countSpreads fields = 0) ∧
    gatherFragmentDependencies fields ≠ some [] := by
  have hl := gatherFragmentDependenciesLoop_length fields
  refine ⟨by rw [getD_gatherFragmentDependencies]; exact hl, ?_, ?_⟩
  · rw [gatherFragmentDependencies]
    by_cases h : (gatherFragmentDependenciesLoop fields).isEmpty
    · simp [h]
      rw [← hl, List.isEmpty_iff.mp h]
      rfl
    · simp [h]
      rw [← hl]
      intro hzero
      exact h (List.isEmpty_iff.mpr (List.length_eq_zero.mp hzero))
  · rw [gatherFragmentDependencies]
    by_cases h : (gatherFragmentDependenciesLoop fields).isEmpty
    · simp [h]
    · simp [h]
      intro heq
      exact h (List.isEmpty_iff.mpr heq)

theorem processDefinitions_append (td td' : TemplateData) (pre ds : List Definition)
    (h : processDefinitions td pre = .ok (td', none)) :
    processDefinitions td (pre ++ ds) = processDefinitions td' ds := by
  induction pre generalizing td with
  | nil =>
    rw [processDefinitions] at h
    cases h
    rfl
  | cons d pre ih =>
    cases d with
    | operationDefinition o =>
      rw [processDefinitions] at h
      rw [List.cons_append, processDefinitions]
      have hcases : (∃ q, transformOperation o = .ok q) ∨
          (∃ e, transformOperation o = .error e) := by
        cases transformOperation o with
        | ok q => exact .inl ⟨q, rfl⟩
        | error e => exact .inr ⟨e, rfl⟩
      by_cases hq : o.operation = "query"
      · rw [if_pos hq] at h ⊢
        rcases hcases with ⟨q, hto⟩ | ⟨e, hto⟩
        · rw [hto] at h ⊢
          exact ih _ h
        · rw [hto] at h
          exact Except.noConfusion h
      · rw [if_neg hq] at h ⊢
        by_cases hm : o.operation = "mutation"
        · rw [if_pos hm] at h ⊢
          rcases hcases with ⟨q, hto⟩ | ⟨e, hto⟩
          · rw [hto] at h ⊢
            exact ih _ h
          · rw [hto] at h
            exact Except.noConfusion h
        · rw [if_neg hm] at h
          cases h
    | fragmentDefinition f =>
      rw [processDefinitions] at h
      rw [List.cons_append, processDefinitions]
      exact ih _ h
    | otherDefinition kind =>
      rw [processDefinitions] at h
      cases h

/-- C3 (amended): when a top-level definition is neither an operation nor
a fragment definition, `transformGraphql` fails with the
unknown-definition-kind error and processes nothing at or after the
offending definition; however, because the Go code appends into the
caller's `TemplateData` through a pointer as it goes, the definitions
successfully processed earlier in the same document remain appended: the
resulting state is exactly the state reached after the preceding valid
definitions, not the state from before the call. -/
theorem transformGraphql_unknown_definition_kind
    (td td' : TemplateData) (pre rest : List Definition) (k : String)
    (h : processDefinitions td pre = .ok (td', none)) :
    transformGraphql td (.ok ⟨"Document", pre ++ .otherDefinition k :: rest⟩)
      = .ok (td', some ("Unknown definition kind: " ++ k)) := by
  simp only [transformGraphql]
  rw [if_neg (by simp)]
  rw [processDefinitions_append td td' pre (.otherDefinition k :: rest) h]
  rfl

/-- Witness for C3 (amended): a document holding the valid fragment `F`
followed by a type definition makes `transformGraphql` return the
unknown-definition-kind error with the fragment still appended. -/
theorem transformGraphql_unknown_definition_kind_witness :
    transformGraphql emptyTemplateData (.ok exampleDocumentWithBadDefinition)
      = .ok ({ fragments := [transformFragment exampleFragmentDefinition],
               queries := [], mutations := [] },
             some "Unknown definition kind: ObjectDefinition") :=
  transformGraphql_unknown_definition_kind emptyTemplateData
    { fragments := [transformFragment exampleFragmentDefinition],
      queries := [], mutations := [] }
    [.fragmentDefinition exampleFragmentDefinition] [] "ObjectDefinition" rfl

/-- C3 counterexample: the claim as stated asserts that on an
unknown-definition-kind failure the accumulated `TemplateData` is
unchanged from its value before the call even when earlier definitions in
the document were valid.  On the document `[fragment F, ObjectDefinition]`
starting from empty data the call fails with the unknown-definition-kind
error yet leaves the fragment `F` appended, so the resulting data differs
from the pre-call value. -/
theorem transformGraphql_unknown_definition_kind_counterexample :
    transformGraphql emptyTemplateData (.ok exampleDocumentWithBadDefinition)
      = .ok ({ fragments := [transformFragment exampleFragmentDefinition],
               queries := [], mutations := [] },
             some "Unknown definition kind: ObjectDefinition") ∧
    ({ fragments := [transformFragment exampleFragmentDefinition],
       queries := [], mutations := [] } : TemplateData) ≠ emptyTemplateData := by
  refine ⟨rfl, fun hcontra => ?_⟩
  have hfrags := congrArg TemplateData.fragments hcontra
  simp [emptyTemplateData] at hfrags

theorem insertFragmentStable_perm (x : Fragment) (l : List Fragment) :
    List.Perm (insertFragmentStable x l) (x :: l) := by
  induction l with
  | nil => exact List.Perm.refl _
  | cons y ys ih =>
    rw [insertFragmentStable]
    by_cases h : dependencyCount x ≤ dependencyCount y
    · rw [if_pos h]
    · rw [if_neg h]
      exact (ih.cons y).trans (List.Perm.swap x y ys)

theorem insertFragmentStable_pairwise (x : Fragment) (l : List Fragment)
    (h : List.Pairwise (fun a b => dependencyCount a ≤ dependencyCount b) l) :
    List.Pairwise (fun a b => dependencyCount a ≤ dependencyCount b)
      (insertFragmentStable x l) := by
  induction l with
  | nil => simp [insertFragmentStable]
  | cons y ys ih =>
    rw [insertFragmentStable]
    rw [List.pairwise_cons] at h
    by_cases hxy : dependencyCount x ≤ dependencyCount y
    · rw [if_pos hxy]
      refine List.Pairwise.cons (fun z hz => ?_) (List.Pairwise.cons h.1 h.2)
      cases List.mem_cons.mp hz with
      | inl hzy => exact hzy ▸ hxy
      | inr hzys => exact le_trans hxy (h.1 z hzys)
    · rw [if_neg hxy]
      refine List.Pairwise.cons (fun z hz => ?_) (ih h.2)
      cases List.mem_cons.mp ((insertFragmentStable_perm x ys).mem_iff.mp hz) with
      | inl hzx => exact hzx ▸ le_of_not_le hxy
      | inr hzys => exact h.1 z hzys

theorem insertFragmentStable_filter (x : Fragment) (l : List Fragment) (c : Nat) :
    (insertFragmentStable x l).filter (fun f => dependencyCount f == c)
      = if dependencyCount x = c
        then x :: l.filter (fun f => dependencyCount f == c)
        else l.filter (fun f => dependencyCount f == c) := by
  induction l with
  | nil =>
    by_cases hx : dependencyCount x = c
    · simp [insertFragmentStable, List.filter_cons, hx]
    · simp [insertFragmentStable, List.filter_cons, hx]
  | cons y ys ih =>
    rw [insertFragmentStable]
    by_cases hxy : dependencyCount x ≤ dependencyCount y
    · rw [if_pos hxy]
      by_cases hx : dependencyCount x = c
      · simp [List.filter_cons, hx]
      · simp [List.filter_cons, hx]
    · rw [if_neg hxy]
      have hlt : dependencyCount y < dependencyCount x := Nat.lt_of_not_le hxy
      by_cases hx : dependencyCount x = c
      · have hyne : (dependencyCount y == c) = false := by
          simp only [beq_eq_false_iff_ne, ne_eq]
          omega
        rw [if_pos hx]
        rw [List.filter_cons_of_neg, List.filter_cons_of_neg]
        · rw [ih, if_pos hx]
        · simp [hyne]
        · simp [hyne]
      · rw [if_neg hx]
        rw [List.filter_cons, List.filter_cons]
        rw [ih, if_neg hx]

/-- C7: the claim states that after a build target's documents are
transformed the fragment sequence is stably reordered ascending by the
length of each fragment's `FragmentDependencies`: the result is a
permutation of the input in which every earlier fragment has a dependency
count less than or equal to every later one, and for any fixed dependency
count the fragments with that count appear in exactly their original
relative (encounter) order. -/
theorem sortFragments_stable_by_dependency_count (l : List Fragment) :
    List.Perm (sortFragmentsByDependencyCount l) l ∧
    List.Pairwise (fun a b => dependencyCount a ≤ dependencyCount b)
      (sortFragmentsByDependencyCount l) ∧
    ∀ c : Nat,
      (sortFragmentsByDependencyCount l).filter (fun f => dependencyCount f == c)
        = l.filter (fun f => dependencyCount f == c) := by
  induction l with
  | nil => exact ⟨List.Perm.refl _, List.Pairwise.nil, fun _ => rfl⟩
  | cons x xs ih =>
    obtain ⟨ihperm, ihpair, ihfilter⟩ := ih
    rw [sortFragmentsByDependencyCount]
    refine ⟨(insertFragmentStable_perm x _).trans (ihperm.cons x),
      insertFragmentStable_pairwise x _ ihpair, fun c => ?_⟩
    rw [insertFragmentStable_filter, List.filter_cons]
    by_cases hx : dependencyCount x = c
    · rw [if_pos hx, ihfilter c, if_pos (by simp [hx])]
    · rw [if_neg hx, ihfilter c, if_neg (by simp [hx])]

theorem char_toLower_isLower {c : Char} (h : c.isUpper = true) :
    c.toLower.isLower = true := by
  simp [Char.isUpper, UInt32.le_def, BitVec.le_def] at h
  have hc : 65 ≤ c.toNat ∧ c.toNat ≤ 90 := h
  have hvalid : (c.toNat + 32).isValidChar := by
    left
    omega
  simp [Char.toLower, hc, Char.ofNat, hvalid, Char.ofNatAux, Char.isLower,
    UInt32.le_def, BitVec.le_def, BitVec.ofNatLt]

theorem char_toLower_eq_self {c : Char} (h : c.isLower = true) : c.toLower = c := by
  simp [Char.isLower, UInt32.le_def, BitVec.le_def] at h
  have hc : ¬ (65 ≤ c.toNat ∧ c.toNat ≤ 90) := by
    have h1 : 97 ≤ c.toNat := h.1
    have h2 : c.toNat ≤ 122 := h.2
    omega
  simp [Char.toLower, hc]

theorem char_toUpper_isUpper {c : Char} (h : c.isLower = true) :
    c.toUpper.isUpper = true := by
  simp [Char.isLower, UInt32.le_def, BitVec.le_def] at h
  have hc : 97 ≤ c.toNat ∧ c.toNat ≤ 122 := h
  have hvalid : (c.toNat - 32).isValidChar := by
    left
    omega
  simp [Char.toUpper, hc, Char.ofNat, hvalid, Char.ofNatAux, Char.isUpper,
    UInt32.le_def, BitVec.le_def, BitVec.ofNatLt]
  omega

theorem char_toUpper_isAlpha {c : Char} (h : c.isAlpha = true) :
    c.toUpper.isAlpha = true := by
  rw [Char.isAlpha, Bool.or_eq_true] at h
  cases h with
  | inl hup =>
    have hc : ¬ (97 ≤ c.toNat ∧ c.toNat ≤ 122) := by
      simp [Char.isUpper, UInt32.le_def, BitVec.le_def] at hup
      have h1 : 65 ≤ c.toNat := hup.1
      have h2 : c.toNat ≤ 90 := hup.2
      omega
    rw [Char.isAlpha, Bool.or_eq_true]
    left
    simpa [Char.toUpper, hc] using hup
  | inr hlo =>
    rw [Char.isAlpha, Bool.or_eq_true]
    left
    exact char_toUpper_isUpper hlo


theorem asciiCaseClassifier_isLower : asciiCaseClassifier.isLower = Char.isLower := rfl

theorem asciiCaseClassifier_isUpper : asciiCaseClassifier.isUpper = Char.isUpper := rfl

theorem asciiCaseClassifier_toLower : asciiCaseClassifier.toLower = Char.toLower := rfl

theorem asciiCaseClassifier_toTitle : asciiCaseClassifier.toTitle = Char.toUpper := rfl

theorem asciiCaseClassifier_isSeparator :
    asciiCaseClassifier.isSeparator = stringsTitleIsSeparator := rfl

theorem char_isLower_toNat_le {c : Char} (h : c.isLower = true) : c.toNat ≤ 127 := by
  simp [Char.isLower, UInt32.le_def, BitVec.le_def] at h
  have h2 : c.toNat ≤ 122 := h.2
  omega

theorem splitStringByCaseAux_tokens (cs : List Char) (words : List String) (word : String)
    (hwords : ∀ w ∈ words, w ≠ "" ∧ ∀ c ∈ w.data, c.isLower = true)
    (hword : ∀ c ∈ word.data, c.isLower = true) :
    ∀ w ∈ splitStringByCaseAux asciiCaseClassifier cs words word,
      w ≠ "" ∧ ∀ c ∈ w.data, c.isLower = true := by
  induction cs generalizing words word with
  | nil =>
    rw [splitStringByCaseAux]
    by_cases hw : word ≠ ""
    · rw [if_pos hw]
      intro w hmem
      cases List.mem_append.mp hmem with
      | inl hin => exact hwords w hin
      | inr hin =>
        rw [List.mem_singleton.mp hin]
        exact ⟨hw, hword⟩
    · rw [if_neg hw]
      exact hwords
  | cons c rest ih =>
    rw [splitStringByCaseAux]
    simp only [asciiCaseClassifier_isLower, asciiCaseClassifier_isUpper,
      asciiCaseClassifier_toLower]
    have hflush : ∀ w ∈ (if word ≠ "" then words ++ [word] else words),
        w ≠ "" ∧ ∀ c ∈ w.data, c.isLower = true := by
      by_cases hw : word ≠ ""
      · rw [if_pos hw]
        intro w hmem
        cases List.mem_append.mp hmem with
        | inl hin => exact hwords w hin
        | inr hin =>
          rw [List.mem_singleton.mp hin]
          exact ⟨hw, hword⟩
      · rw [if_neg hw]
        exact hwords
    by_cases hlo : c.isLower
    · rw [if_pos hlo]
      refine ih words (word.push c) hwords fun d hd => ?_
      rw [String.data_push] at hd
      cases List.mem_append.mp hd with
      | inl hin => exact hword d hin
      | inr hin => exact (List.mem_singleton.mp hin) ▸ hlo
    · rw [if_neg hlo]
      by_cases hup : c.isUpper
      · rw [if_pos hup]
        refine ih _ (String.singleton c.toLower) hflush fun d hd => ?_
        rw [String.data_singleton] at hd
        exact (List.mem_singleton.mp hd) ▸ char_toLower_isLower hup
      · rw [if_neg hup]
        exact ih _ "" hflush (by simp)

theorem stringsTitleAux_alpha (cs : List Char) (prev : Char)
    (h : ∀ c ∈ cs, c.isAlpha = true) :
    ∀ c ∈ stringsTitleAux asciiCaseClassifier prev cs, c.isAlpha = true := by
  induction cs generalizing prev with
  | nil => simp [stringsTitleAux]
  | cons c rest ih =>
    rw [stringsTitleAux]
    simp only [asciiCaseClassifier_isSeparator, asciiCaseClassifier_toTitle]
    intro d hd
    cases List.mem_cons.mp hd with
    | inl hdc =>
      subst hdc
      by_cases hsep : stringsTitleIsSeparator prev = true
      · rw [if_pos hsep]
        exact char_toUpper_isAlpha (h c (List.mem_cons_self c rest))
      · rw [if_neg hsep]
        exact h c (List.mem_cons_self c rest)
    | inr hdrest =>
      exact ih c (fun e he => h e (List.mem_cons_of_mem c he)) d hdrest

theorem stringsToLower_ascii_all_lower (w : String)
    (h : ∀ c ∈ w.data, c.isLower = true) :
    ∀ c ∈ (stringsToLower asciiCaseClassifier w).data, c.isLower = true := by
  intro c hc
  rw [show (stringsToLower asciiCaseClassifier w).data = w.data.map Char.toLower from rfl]
    at hc
  obtain ⟨d, hd, hdc⟩ := List.mem_map.mp hc
  rw [← hdc, char_toLower_eq_self (h d hd)]
  exact h d hd

theorem stringsTitle_stringsToLower_alpha (w : String)
    (h : ∀ c ∈ w.data, c.isLower = true) :
    ∀ c ∈ (stringsTitle asciiCaseClassifier (stringsToLower asciiCaseClassifier w)).data,
      c.isAlpha = true := by
  rw [show (stringsTitle asciiCaseClassifier (stringsToLower asciiCaseClassifier w)).data
      = stringsTitleAux asciiCaseClassifier ' ' (stringsToLower asciiCaseClassifier w).data
      from rfl]
  refine stringsTitleAux_alpha _ ' ' fun c hc => ?_
  rw [Char.isAlpha, Bool.or_eq_true]
  right
  exact stringsToLower_ascii_all_lower w h c hc

theorem splitStringByCase_ascii_all (s : String) :
    ((splitStringByCase asciiCaseClassifier s).all
        fun w => !(w == "") && w.data.all Char.isLower) = true ∧
    ((camelCase asciiCaseClassifier s).data.all Char.isAlpha) = true ∧
    ((pascalCase asciiCaseClassifier s).data.all Char.isAlpha) = true := by
  have htok := splitStringByCaseAux_tokens s.data [] "" (by simp) (by simp)
  refine ⟨?_, ?_, ?_⟩
  · rw [List.all_eq_true]
    intro w hw
    obtain ⟨hne, hlow⟩ := htok w hw
    rw [Bool.and_eq_true, Bool.not_eq_true', beq_eq_false_iff_ne, List.all_eq_true]
    exact ⟨hne, hlow⟩
  · cases hsplit : splitStringByCase asciiCaseClassifier s with
    | nil => simp [camelCase, hsplit]
    | cons w ws =>
      have hmemtok : ∀ v ∈ w :: ws, v ≠ "" ∧ ∀ c ∈ v.data, c.isLower = true := by
        rw [← hsplit]
        exact htok
      simp only [camelCase, hsplit]
      rw [List.all_eq_true]
      intro c hc
      rw [String.data_join] at hc
      obtain ⟨cl, hcl, hccl⟩ := List.mem_flatten.mp hc
      simp only [List.map_cons, List.map_map] at hcl
      cases List.mem_cons.mp hcl with
      | inl hhead =>
        subst hhead
        rw [Char.isAlpha, Bool.or_eq_true]
        right
        exact stringsToLower_ascii_all_lower w
          (hmemtok w (List.mem_cons_self w ws)).2 c hccl
      | inr htail =>
        obtain ⟨word, hword, hdata⟩ := List.mem_map.mp htail
        rw [← hdata] at hccl
        exact stringsTitle_stringsToLower_alpha word
          (hmemtok word (List.mem_cons_of_mem w hword)).2 c hccl
  · rw [pascalCase, List.all_eq_true]
    intro c hc
    rw [String.data_join] at hc
    obtain ⟨cl, hcl, hccl⟩ := List.mem_flatten.mp hc
    rw [List.map_map] at hcl
    obtain ⟨word, hword, hdata⟩ := List.mem_map.mp hcl
    rw [← hdata] at hccl
    exact stringsTitle_stringsToLower_alpha word (htok word hword).2 c hccl

theorem splitStringByCaseAux_agree (u : CaseClassifier)
    (hlo : ∀ c : Char, c.toNat ≤ 127 → u.isLower c = c.isLower)
    (hup : ∀ c : Char, c.toNat ≤ 127 → u.isUpper c = c.isUpper)
    (htl : ∀ c : Char, c.toNat ≤ 127 → u.toLower c = c.toLower) :
    ∀ (cs : List Char), (∀ c ∈ cs, c.toNat ≤ 127) →
      ∀ (words : List String) (word : String),
        splitStringByCaseAux u cs words word
          = splitStringByCaseAux asciiCaseClassifier cs words word := by
  intro cs
  induction cs with
  | nil =>
    intro _ words word
    rw [splitStringByCaseAux, splitStringByCaseAux]
  | cons c rest ih =>
    intro hcs words word
    have hc : c.toNat ≤ 127 := hcs c (List.mem_cons_self c rest)
    have hrest : ∀ d ∈ rest, d.toNat ≤ 127 :=
      fun d hd => hcs d (List.mem_cons_of_mem c hd)
    simp only [splitStringByCaseAux, asciiCaseClassifier_isLower,
      asciiCaseClassifier_isUpper, asciiCaseClassifier_toLower,
      hlo c hc, hup c hc, htl c hc]
    by_cases hl : c.isLower = true
    · rw [if_pos hl, if_pos hl]
      exact ih hrest words (word.push c)
    · rw [if_neg hl, if_neg hl]
      by_cases hu : c.isUpper = true
      · rw [if_pos hu, if_pos hu]
        exact ih hrest _ (String.singleton c.toLower)
      · rw [if_neg hu, if_neg hu]
        exact ih hrest _ ""

theorem stringsToLower_agree (u : CaseClassifier)
    (htl : ∀ c : Char, c.toNat ≤ 127 → u.toLower c = c.toLower)
    (w : String) (hw : ∀ c ∈ w.data, c.toNat ≤ 127) :
    stringsToLower u w = stringsToLower asciiCaseClassifier w :=
  congrArg String.mk (List.map_congr_left fun c hc => htl c (hw c hc))

theorem stringsTitleAux_agree (u : CaseClassifier)
    (htt : ∀ c : Char, c.toNat ≤ 127 → u.toTitle c = c.toUpper)
    (hsep : ∀ c : Char, c.toNat ≤ 127 → u.isSeparator c = stringsTitleIsSeparator c) :
    ∀ (cs : List Char), (∀ c ∈ cs, c.toNat ≤ 127) →
      ∀ (prev : Char), prev.toNat ≤ 127 →
        stringsTitleAux u prev cs = stringsTitleAux asciiCaseClassifier prev cs := by
  intro cs
  induction cs with
  | nil =>
    intro _ prev _
    rw [stringsTitleAux, stringsTitleAux]
  | cons c rest ih =>
    intro hcs prev hprev
    have hc : c.toNat ≤ 127 := hcs c (List.mem_cons_self c rest)
    have hrest : ∀ d ∈ rest, d.toNat ≤ 127 :=
      fun d hd => hcs d (List.mem_cons_of_mem c hd)
    simp only [stringsTitleAux, asciiCaseClassifier_isSeparator,
      asciiCaseClassifier_toTitle, hsep prev hprev, htt c hc]
    rw [ih hrest c hc]

theorem stringsTitle_agree (u : CaseClassifier)
    (htt : ∀ c : Char, c.toNat ≤ 127 → u.toTitle c = c.toUpper)
    (hsep : ∀ c : Char, c.toNat ≤ 127 → u.isSeparator c = stringsTitleIsSeparator c)
    (s : String) (hs : ∀ c ∈ s.data, c.toNat ≤ 127) :
    stringsTitle u s = stringsTitle asciiCaseClassifier s :=
  congrArg String.mk (stringsTitleAux_agree u htt hsep s.data hs ' ' (by decide))

theorem camelCase_agree (u : CaseClassifier)
    (hlo : ∀ c : Char, c.toNat ≤ 127 → u.isLower c = c.isLower)
    (hup : ∀ c : Char, c.toNat ≤ 127 → u.isUpper c = c.isUpper)
    (htl : ∀ c : Char, c.toNat ≤ 127 → u.toLower c = c.toLower)
    (htt : ∀ c : Char, c.toNat ≤ 127 → u.toTitle c = c.toUpper)
    (hsep : ∀ c : Char, c.toNat ≤ 127 → u.isSeparator c = stringsTitleIsSeparator c)
    (s : String) (hs : ∀ c ∈ s.data, c.toNat ≤ 127) :
    camelCase u s = camelCase asciiCaseClassifier s := by
  have hsplit : splitStringByCase u s = splitStringByCase asciiCaseClassifier s :=
    splitStringByCaseAux_agree u hlo hup htl s.data hs [] ""
  have htok : ∀ v ∈ splitStringByCase asciiCaseClassifier s,
      v ≠ "" ∧ ∀ c ∈ v.data, c.isLower = true :=
    splitStringByCaseAux_tokens s.data [] "" (by simp) (by simp)
  rw [camelCase, camelCase, hsplit]
  cases hsp : splitStringByCase asciiCaseClassifier s with
  | nil => rfl
  | cons w ws =>
    show String.join
          (stringsToLower u w :: ws.map fun word => stringsTitle u (stringsToLower u word))
        = String.join
          (stringsToLower asciiCaseClassifier w ::
            ws.map fun word =>
              stringsTitle asciiCaseClassifier (stringsToLower asciiCaseClassifier word))
    have hwtok : ∀ v ∈ w :: ws, v ≠ "" ∧ ∀ c ∈ v.data, c.isLower = true := by
      rw [← hsp]
      exact htok
    have hasc : ∀ v ∈ w :: ws, ∀ c ∈ v.data, c.toNat ≤ 127 :=
      fun v hv c hc => char_isLower_toNat_le ((hwtok v hv).2 c hc)
    have hhead : stringsToLower u w = stringsToLower asciiCaseClassifier w :=
      stringsToLower_agree u htl w (hasc w (List.mem_cons_self w ws))
    have htail :
        ws.map (fun word => stringsTitle u (stringsToLower u word))
          = ws.map (fun word =>
              stringsTitle asciiCaseClassifier (stringsToLower asciiCaseClassifier word)) :=
      List.map_congr_left fun word hword => by
        rw [stringsToLower_agree u htl word (hasc word (List.mem_cons_of_mem w hword)),
          stringsTitle_agree u htt hsep _ fun c hc =>
            char_isLower_toNat_le
              (stringsToLower_ascii_all_lower word
                (hwtok word (List.mem_cons_of_mem w hword)).2 c hc)]
    rw [hhead, htail]

theorem pascalCase_agree (u : CaseClassifier)
    (hlo : ∀ c : Char, c.toNat ≤ 127 → u.isLower c = c.isLower)
    (hup : ∀ c : Char, c.toNat ≤ 127 → u.isUpper c = c.isUpper)
    (htl : ∀ c : Char, c.toNat ≤ 127 → u.toLower c = c.toLower)
    (htt : ∀ c : Char, c.toNat ≤ 127 → u.toTitle c = c.toUpper)
    (hsep : ∀ c : Char, c.toNat ≤ 127 → u.isSeparator c = stringsTitleIsSeparator c)
    (s : String) (hs : ∀ c ∈ s.data, c.toNat ≤ 127) :
    pascalCase u s = pascalCase asciiCaseClassifier s := by
  have hsplit : splitStringByCase u s = splitStringByCase asciiCaseClassifier s :=
    splitStringByCaseAux_agree u hlo hup htl s.data hs [] ""
  have htok : ∀ v ∈ splitStringByCase asciiCaseClassifier s,
      v ≠ "" ∧ ∀ c ∈ v.data, c.isLower = true :=
    splitStringByCaseAux_tokens s.data [] "" (by simp) (by simp)
  rw [pascalCase, pascalCase, hsplit]
  refine congrArg String.join (List.map_congr_left fun word hword => ?_)
  have hlow := (htok word hword).2
  have hascw : ∀ c ∈ word.data, c.toNat ≤ 127 :=
    fun c hc => char_isLower_toNat_le (hlow c hc)
  rw [stringsToLower_agree u htl word hascw,
    stringsTitle_agree u htt hsep _ fun c hc =>
      char_isLower_toNat_le (stringsToLower_ascii_all_lower word hlow c hc)]

/-- C10 counterexample: the claim as stated quantifies over every input
string, but Go's `unicode` classifiers are not ASCII-only.  At the input
consisting of the single character U+1D400 (MATHEMATICAL BOLD CAPITAL A —
category Lu, so `unicode.IsUpper` is true, and with no lowercase mapping,
so `strings.ToLower` returns it unchanged), `splitStringByCase` takes the
uppercase branch and emits the token `"𝐀"`: a token containing a
character that is not a lowercase letter (`IsLower` is false on it), and
`camelCase` keeps that character in its output.  The classifier
`unicodeCaseClassifierMathBold` records the `unicode` package's documented
behavior at that character. -/
theorem splitStringByCase_unicode_counterexample :
    splitStringByCase unicodeCaseClassifierMathBold (String.singleton mathBoldCapitalA)
      = [String.singleton mathBoldCapitalA] ∧
    unicodeCaseClassifierMathBold.isLower mathBoldCapitalA = false ∧
    ((String.singleton mathBoldCapitalA).data.all Char.isLower) = false ∧
    camelCase unicodeCaseClassifierMathBold (String.singleton mathBoldCapitalA)
      = String.singleton mathBoldCapitalA :=
  ⟨rfl, rfl, rfl, rfl⟩

/-- C10 (amended): for every input string consisting of ASCII characters
— in particular every GraphQL identifier this code generator feeds to the
casing helpers — the word tokens produced by `splitStringByCase` consist
only of lowercase letters: any ASCII character that is neither a
lowercase nor an uppercase letter (digits, underscores, punctuation) ends
the current token and is itself discarded, so the `camelCase` and
`pascalCase` outputs never contain digits or punctuation from the input
identifier.  The statement takes the external casing primitives as a
parameter constrained to agree with the ASCII classifiers below U+0080,
which Go's `unicode` and `strings` packages do; off ASCII the property
fails (see the counterexample). -/
theorem splitStringByCase_lowercase_tokens_ascii (u : CaseClassifier) (s : String)
    (hlo : ∀ c : Char, c.toNat ≤ 127 → u.isLower c = c.isLower)
    (hup : ∀ c : Char, c.toNat ≤ 127 → u.isUpper c = c.isUpper)
    (htl : ∀ c : Char, c.toNat ≤ 127 → u.toLower c = c.toLower)
    (htt : ∀ c : Char, c.toNat ≤ 127 → u.toTitle c = c.toUpper)
    (hsep : ∀ c : Char, c.toNat ≤ 127 → u.isSeparator c = stringsTitleIsSeparator c)
    (hascii : ∀ c ∈ s.data, c.toNat ≤ 127) :
    ((splitStringByCase u s).all fun w => !(w == "") && w.data.all Char.isLower) = true ∧
    ((camelCase u s).data.all Char.isAlpha) = true ∧
    ((pascalCase u s).data.all Char.isAlpha) = true := by
  obtain ⟨h1, h2, h3⟩ := splitStringByCase_ascii_all s
  refine ⟨?_, ?_, ?_⟩
  · rw [show splitStringByCase u s = splitStringByCase asciiCaseClassifier s from
      splitStringByCaseAux_agree u hlo hup htl s.data hascii [] ""]
    exact h1
  · rw [camelCase_agree u hlo hup htl htt hsep s hascii]
    exact h2
  · rw [pascalCase_agree u hlo hup htl htt hsep s hascii]
    exact h3

/-- Witness for C10 (amended): the amended theorem applied to the ASCII
classifier itself and the concrete identifier `hello_HTTPWorld9x`; the
agreement hypotheses hold definitionally and every character of the input
is ASCII. -/
theorem splitStringByCase_lowercase_tokens_ascii_witness :
    ((splitStringByCase asciiCaseClassifier "hello_HTTPWorld9x").all
        fun w => !(w == "") && w.data.all Char.isLower) = true ∧
    ((camelCase asciiCaseClassifier "hello_HTTPWorld9x").data.all Char.isAlpha) = true ∧
    ((pascalCase asciiCaseClassifier "hello_HTTPWorld9x").data.all Char.isAlpha) = true :=
  splitStringByCase_lowercase_tokens_ascii asciiCaseClassifier "hello_HTTPWorld9x"
    (fun _ _ => rfl) (fun _ _ => rfl) (fun _ _ => rfl) (fun _ _ => rfl) (fun _ _ => rfl)
    (by decide)
